import Mathlib

set_option maxRecDepth 16384

/-!
# Verification of the serial-terminal line-framing pipeline

Shallow embedding of `src/main.rs` of `serial-terminal-rs`:

* `Eol` / `Eol.bytes` embed the `Eol` enum and its `bytes` method.
* Strings are modelled as lists of Unicode scalar values (`List Nat`);
  byte buffers (`BytesMut`) as lists of byte values (`List Nat`).
* `utf8Encode` models `str::as_bytes` (UTF-8 encoding of a string);
  `utf8Decode` models `str::from_utf8` validation plus decoding to scalars.
* `isWhitespaceChar` / `trimEnd` model Rust `char::is_whitespace`
  (the Unicode `White_Space` property) and `str::trim_end`.
* `SerialReadCodec.decode` embeds `<SerialReadCodec as Decoder>::decode`,
  returning the decode outcome together with the accumulator left behind
  (the `&mut BytesMut` after the call).
* `SerialWriteCodec.encode` embeds `<SerialWriteCodec as Encoder>::encode`,
  returning the `Result` and the output buffer after the call.
* `LoopOutcome` / `tryJoinAt` model the coordinator in `main`: each
  forwarding loop (`framed_stdin.forward(sink)`, `stream.forward(framed_stdout)`)
  is abstracted as a future completing at some poll step with a
  `Result<(), TransportError>`; `tryJoinAt` gives the observable state of
  `futures::future::try_join(input, output)` at each poll step (it polls
  the first future, short-circuiting on an error, then the second, and is
  ready with `Ok` only when both are).
-/

/-- Embeds the `Eol` enum of `main.rs` (end-of-line options `cr`, `crlf`, `lf`). -/
inductive Eol : Type
  | cr
  | crlf
  | lf
  deriving DecidableEq, Repr

/-- Embeds `Eol::bytes`: `Cr => b"\r"`, `Crlf => b"\r\n"`, `Lf => b"\n"`. -/
def Eol.bytes : Eol → List Nat
  | .cr => [13]
  | .crlf => [13, 10]
  | .lf => [10]

/-- A UTF-8 continuation byte: `0x80 ≤ b ≤ 0xBF`. -/
def isCont (b : Nat) : Bool := 0x80 ≤ b && b < 0xC0

/-- A Unicode scalar value: below `0x110000` and not a surrogate.
This is the invariant of a Rust `char`. -/
def validScalar (c : Nat) : Bool := c < 0x110000 && !(0xD800 ≤ c && c < 0xE000)

/-- UTF-8 encoding of one scalar value (the byte layout `char::encode_utf8` /
`str::as_bytes` uses). -/
def utf8EncodeChar (c : Nat) : List Nat :=
  if c < 0x80 then [c]
  else if c < 0x800 then [0xC0 + c / 64, 0x80 + c % 64]
  else if c < 0x10000 then [0xE0 + c / 4096, 0x80 + (c / 64) % 64, 0x80 + c % 64]
  else [0xF0 + c / 262144, 0x80 + (c / 4096) % 64, 0x80 + (c / 64) % 64, 0x80 + c % 64]

/-- UTF-8 encoding of a string (list of scalar values): `str::as_bytes`. -/
def utf8Encode (s : List Nat) : List Nat := s.flatMap utf8EncodeChar

/-- Scalar value of a two-byte UTF-8 sequence. -/
def char2 (b b1 : Nat) : Nat := (b - 0xC0) * 64 + (b1 - 0x80)

/-- Scalar value of a three-byte UTF-8 sequence. -/
def char3 (b b1 b2 : Nat) : Nat := (b - 0xE0) * 4096 + (b1 - 0x80) * 64 + (b2 - 0x80)

/-- Scalar value of a four-byte UTF-8 sequence. -/
def char4 (b b1 b2 b3 : Nat) : Nat :=
  (b - 0xF0) * 262144 + (b1 - 0x80) * 4096 + (b2 - 0x80) * 64 + (b3 - 0x80)

/-- Valid decoded value for a three-byte sequence: not overlong, not a
surrogate. -/
def valid3 (c : Nat) : Bool := 0x800 ≤ c && !(0xD800 ≤ c && c < 0xE000)

/-- Valid decoded value for a four-byte sequence: not overlong, within
Unicode range. -/
def valid4 (c : Nat) : Bool := 0x10000 ≤ c && c < 0x110000

/-- Continuation of a two-byte sequence with lead byte `b`: one
continuation byte must follow. -/
def decode2At : Nat → List Nat → Option (Nat × List Nat)
  | b, b1 :: rest1 => if isCont b1 then some (char2 b b1, rest1) else none
  | _, [] => none

/-- Continuation of a three-byte sequence with lead byte `b`: two
continuation bytes must follow and the value must pass `valid3`. -/
def decode3At : Nat → List Nat → Option (Nat × List Nat)
  | b, b1 :: b2 :: rest2 =>
    if isCont b1 && isCont b2 && valid3 (char3 b b1 b2) then
      some (char3 b b1 b2, rest2)
    else none
  | _, _ => none

/-- Continuation of a four-byte sequence with lead byte `b`: three
continuation bytes must follow and the value must pass `valid4`. -/
def decode4At : Nat → List Nat → Option (Nat × List Nat)
  | b, b1 :: b2 :: b3 :: rest3 =>
    if isCont b1 && isCont b2 && isCont b3 && valid4 (char4 b b1 b2 b3) then
      some (char4 b b1 b2 b3, rest3)
    else none
  | _, _ => none

/-- Decode one UTF-8 character from the front of a byte sequence, as
`str::from_utf8` validates it: `some (scalar, remaining bytes)` when the
bytes start with a well-formed character (rejecting stray continuation
bytes, overlong forms, surrogates and values above `0x10FFFF`), `none`
otherwise. -/
def utf8DecodeChar1 : List Nat → Option (Nat × List Nat)
  | [] => none
  | b :: rest =>
    if b < 0x80 then some (b, rest)
    else if b < 0xC2 then none
    else if b < 0xE0 then decode2At b rest
    else if b < 0xF0 then decode3At b rest
    else if b < 0xF5 then decode4At b rest
    else none

/-- Iterated `utf8DecodeChar1`, with fuel bounding the number of decoded
characters (each character consumes at least one byte, so `l.length` fuel
always suffices). -/
def utf8DecodeFuel : Nat → List Nat → Option (List Nat)
  | _, [] => some []
  | 0, _ :: _ => none
  | fuel + 1, b :: rest =>
    match utf8DecodeChar1 (b :: rest) with
    | some (c, rest1) => (utf8DecodeFuel fuel rest1).map (fun s => c :: s)
    | none => none

/-- UTF-8 validation-and-decoding of a whole byte sequence, as
`str::from_utf8` performs it: `some` of the scalar values exactly when the
bytes are valid UTF-8, `none` otherwise. -/
def utf8Decode (l : List Nat) : Option (List Nat) := utf8DecodeFuel l.length l

/-- Rust `char::is_whitespace`: the Unicode `White_Space` property. -/
def isWhitespaceChar (c : Nat) : Bool :=
  (9 ≤ c && c ≤ 13) || c == 0x20 || c == 0x85 || c == 0xA0 || c == 0x1680 ||
  (0x2000 ≤ c && c ≤ 0x200A) || c == 0x2028 || c == 0x2029 || c == 0x202F ||
  c == 0x205F || c == 0x3000

/-- Rust `str::trim_end`: drop trailing whitespace characters. -/
def trimEnd (s : List Nat) : List Nat :=
  (s.reverse.dropWhile isWhitespaceChar).reverse

/-- `Iterator::position` over a byte list, as `src.as_ref().iter().position(..)`
computes it: index of the first element satisfying `p`. -/
def position (p : Nat → Bool) : List Nat → Option Nat
  | [] => none
  | b :: rest => if p b then some 0 else (position p rest).map (fun n => n + 1)

/-- Outcome of one `SerialReadCodec::decode` call:
`Ok(Some(line))`, `Ok(None)` (need more data), or `Err(..)`. -/
inductive DecodeResult : Type
  | line : List Nat → DecodeResult
  | needMoreData : DecodeResult
  | decodeError : DecodeResult
  deriving DecidableEq, Repr

/-- Embeds `<SerialReadCodec as Decoder>::decode` from `main.rs`:
scan the accumulator for the first `\n`; if found at `n`, split off bytes
`[0, n]` (`src.split_to(n + 1)`), run `str::from_utf8` on them, and on
success emit `s.trim_end().to_string()`; on failure return the I/O error;
with no `\n`, return `Ok(None)`. The second component is the accumulator
(`src`) after the call. -/
def SerialReadCodec.decode (src : List Nat) : DecodeResult × List Nat :=
  match position (fun b => b == 10) src with
  | some n =>
    match utf8Decode (src.take (n + 1)) with
    | some s => (.line (trimEnd s), src.drop (n + 1))
    | none => (.decodeError, src.drop (n + 1))
  | none => (.needMoreData, src)

/-- The only error `SerialWriteCodec::encode` could report
(`LinesCodecError`); the embedded encoder never produces it. -/
inductive LinesCodecError : Type
  | ioError
  deriving DecidableEq, Repr

/-- Embeds `<SerialWriteCodec as Encoder<String>>::encode` from `main.rs`:
append the line's UTF-8 bytes (`line.as_bytes()`) and then the configured
terminator (`self.0.bytes()`) to the output buffer, returning `Ok(())`.
The second component is the buffer after the call. -/
def SerialWriteCodec.encode (eol : Eol) (line : List Nat) (buf : List Nat) :
    Except LinesCodecError Unit × List Nat :=
  (.ok (), buf ++ utf8Encode line ++ eol.bytes)

/-- A transport failure as surfaced by either forwarding loop
(`LinesCodecError` wrapping an I/O error); the payload tags distinct
errors apart. -/
structure TransportError : Type where
  code : Nat
  deriving DecidableEq, Repr

/-- Abstraction of one forwarding loop future in `main`
(`framed_stdin.forward(sink)` or `stream.forward(framed_stdout)`): it
becomes ready at poll step `time` with result `result`. -/
structure LoopOutcome : Type where
  time : Nat
  result : Except TransportError Unit
  deriving Repr

/-- What polling a loop future at step `t` returns: `some` its result once
`t` has reached its completion step, `none` (pending) before. -/
def pollLoop (a : LoopOutcome) (t : Nat) : Option (Except TransportError Unit) :=
  if a.time ≤ t then some a.result else none

/-- The observable state of `futures::future::try_join(input, output)` at
poll step `t`, as `main` awaits it: poll the first future — if it is ready
with an error, complete with that error; otherwise poll the second — if it
is ready with an error, complete with that error; if both are ready with
`Ok`, complete with `Ok`; otherwise stay pending (`none`). -/
def tryJoinAt (a b : LoopOutcome) (t : Nat) : Option (Except TransportError Unit) :=
  match pollLoop a t, pollLoop b t with
  | some (.error e), _ => some (.error e)
  | _, some (.error e) => some (.error e)
  | some (.ok _), some (.ok _) => some (.ok ())
  | _, _ => none

/-- The poll step at which `try_join` completes: the earliest error if any
loop errors (ties going to the first-polled future), otherwise the later
of the two successful completions. -/
def sessionEndTime (a b : LoopOutcome) : Nat :=
  match a.result, b.result with
  | .error _, .error _ => min a.time b.time
  | .error _, .ok _ => a.time
  | .ok _, .error _ => b.time
  | .ok _, .ok _ => max a.time b.time

/-- The session result `main` reports (`result` in the final `eprintln`):
the short-circuiting error if any loop errors, `Ok` if both succeed. -/
def sessionResult (a b : LoopOutcome) : Except TransportError Unit :=
  match a.result, b.result with
  | .error ea, .error eb => if a.time ≤ b.time then .error ea else .error eb
  | .error ea, .ok _ => .error ea
  | .ok _, .error eb => .error eb
  | .ok _, .ok _ => .ok ()

/-! ## Helper lemmas about `position`, `take` and `trimEnd` -/

theorem position_eq_none {p : Nat → Bool} {l : List Nat} :
    position p l = none ↔ ∀ b ∈ l, p b = false := by
  induction l with
  | nil => simp [position]
  | cons b rest ih => by_cases hb : p b <;> simp [position, hb, ih]

theorem position_some_bound {p : Nat → Bool} {l : List Nat} {n : Nat}
    (h : position p l = some n) : n < l.length := by
  induction l generalizing n with
  | nil => simp [position] at h
  | cons b rest ih =>
    by_cases hb : p b
    · simp [position, hb] at h
      simp only [List.length_cons]
      omega
    · simp [position, hb] at h
      obtain ⟨m, hm, rfl⟩ := h
      have := ih hm
      simp only [List.length_cons]
      omega

theorem position_some_found {p : Nat → Bool} {l : List Nat} {n : Nat}
    (h : position p l = some n) : ∃ b, l[n]? = some b ∧ p b = true := by
  induction l generalizing n with
  | nil => simp [position] at h
  | cons b rest ih =>
    by_cases hb : p b
    · simp [position, hb] at h
      subst h
      exact ⟨b, by simp, hb⟩
    · simp [position, hb] at h
      obtain ⟨m, hm, rfl⟩ := h
      simpa using ih hm

theorem position_some_before {p : Nat → Bool} {l : List Nat} {n : Nat}
    (h : position p l = some n) :
    ∀ i b, i < n → l[i]? = some b → p b = false := by
  induction l generalizing n with
  | nil => simp [position] at h
  | cons x rest ih =>
    by_cases hx : p x
    · simp [position, hx] at h
      omega
    · simp [position, hx] at h
      obtain ⟨m, hm, rfl⟩ := h
      intro i b hi hib
      cases i with
      | zero =>
        simp at hib
        subst hib
        simpa using hx
      | succ j =>
        exact ih hm j b (by omega) (by simpa using hib)

theorem take_succ_of_getElem? {l : List Nat} {n : Nat} {b : Nat} (h : l[n]? = some b) :
    l.take (n + 1) = l.take n ++ [b] := by
  induction l generalizing n with
  | nil => simp at h
  | cons x rest ih =>
    cases n with
    | zero => simp_all
    | succ m =>
      simp only [List.take_succ_cons, List.cons_append]
      rw [ih (by simpa using h)]

theorem trimEnd_append_white {s : List Nat} {c : Nat} (h : isWhitespaceChar c = true) :
    trimEnd (s ++ [c]) = trimEnd s := by
  simp [trimEnd, List.dropWhile_cons, h]

theorem mem_trimEnd {s : List Nat} {c : Nat} (h : c ∈ trimEnd s) : c ∈ s := by
  simp only [trimEnd, List.mem_reverse] at h
  have h2 : c ∈ s.reverse := (List.dropWhile_sublist _).mem h
  simpa using h2

theorem head?_dropWhile_false {p : Nat → Bool} {l : List Nat} {c : Nat}
    (h : (l.dropWhile p).head? = some c) : p c = false := by
  induction l with
  | nil => simp at h
  | cons x rest ih =>
    by_cases hx : p x
    · rw [List.dropWhile_cons_of_pos hx] at h
      exact ih h
    · rw [List.dropWhile_cons_of_neg hx] at h
      simp at h
      subst h
      simpa using hx

theorem trimEnd_getLast?_not_white {s : List Nat} {c : Nat}
    (h : (trimEnd s).getLast? = some c) : isWhitespaceChar c = false := by
  rw [trimEnd, List.getLast?_reverse] at h
  exact head?_dropWhile_false h

theorem decode2At_inv {b : Nat} {rest : List Nat} {c : Nat} {r : List Nat}
    (h : decode2At b rest = some (c, r)) :
    ∃ b1, rest = b1 :: r ∧ isCont b1 = true ∧ c = char2 b b1 := by
  cases rest with
  | nil => cases h
  | cons b1 rest1 =>
    simp only [decode2At] at h
    split_ifs at h with hc
    · simp only [Option.some.injEq, Prod.mk.injEq] at h
      obtain ⟨rfl, rfl⟩ := h
      exact ⟨b1, rfl, hc, rfl⟩

theorem decode3At_inv {b : Nat} {rest : List Nat} {c : Nat} {r : List Nat}
    (h : decode3At b rest = some (c, r)) :
    ∃ b1 b2, rest = b1 :: b2 :: r ∧
      (isCont b1 && isCont b2 && valid3 (char3 b b1 b2)) = true ∧ c = char3 b b1 b2 := by
  match rest with
  | [] => cases h
  | [b1] => cases h
  | b1 :: b2 :: rest2 =>
    simp only [decode3At] at h
    split_ifs at h with hc
    · simp only [Option.some.injEq, Prod.mk.injEq] at h
      obtain ⟨rfl, rfl⟩ := h
      exact ⟨b1, b2, rfl, hc, rfl⟩

theorem decode4At_inv {b : Nat} {rest : List Nat} {c : Nat} {r : List Nat}
    (h : decode4At b rest = some (c, r)) :
    ∃ b1 b2 b3, rest = b1 :: b2 :: b3 :: r ∧
      (isCont b1 && isCont b2 && isCont b3 && valid4 (char4 b b1 b2 b3)) = true ∧
      c = char4 b b1 b2 b3 := by
  match rest with
  | [] => cases h
  | [b1] => cases h
  | [b1, b2] => cases h
  | b1 :: b2 :: b3 :: rest3 =>
    simp only [decode4At] at h
    split_ifs at h with hc
    · simp only [Option.some.injEq, Prod.mk.injEq] at h
      obtain ⟨rfl, rfl⟩ := h
      exact ⟨b1, b2, b3, rfl, hc, rfl⟩

set_option maxRecDepth 4096 in
theorem utf8DecodeChar1_inv {l : List Nat} {c : Nat} {rest : List Nat}
    (h : utf8DecodeChar1 l = some (c, rest)) :
    (c < 0x80 ∧ l = c :: rest) ∨
    (∃ b b1, l = b :: b1 :: rest ∧ 0xC2 ≤ b ∧ b < 0xE0 ∧ isCont b1 = true ∧
      c = char2 b b1) ∨
    (∃ b b1 b2, l = b :: b1 :: b2 :: rest ∧ 0xE0 ≤ b ∧ b < 0xF0 ∧
      (isCont b1 && isCont b2 && valid3 (char3 b b1 b2)) = true ∧ c = char3 b b1 b2) ∨
    (∃ b b1 b2 b3, l = b :: b1 :: b2 :: b3 :: rest ∧ 0xF0 ≤ b ∧ b < 0xF5 ∧
      (isCont b1 && isCont b2 && isCont b3 && valid4 (char4 b b1 b2 b3)) = true ∧
      c = char4 b b1 b2 b3) := by
  cases l with
  | nil => cases h
  | cons b t =>
    simp only [utf8DecodeChar1] at h
    split_ifs at h with h1 h2 h3 h4 h5
    · simp only [Option.some.injEq, Prod.mk.injEq] at h
      obtain ⟨rfl, rfl⟩ := h
      exact Or.inl ⟨h1, rfl⟩
    · obtain ⟨b1, rfl, hc, rfl⟩ := decode2At_inv h
      exact Or.inr (Or.inl ⟨b, b1, rfl, Nat.le_of_not_lt h2, h3, hc, rfl⟩)
    · obtain ⟨b1, b2, rfl, hc, rfl⟩ := decode3At_inv h
      exact Or.inr (Or.inr (Or.inl ⟨b, b1, b2, rfl, Nat.le_of_not_lt h3, h4, hc, rfl⟩))
    · obtain ⟨b1, b2, b3, rfl, hc, rfl⟩ := decode4At_inv h
      exact Or.inr (Or.inr (Or.inr ⟨b, b1, b2, b3, rfl, Nat.le_of_not_lt h4, h5, hc, rfl⟩))

theorem utf8DecodeChar1_ascii {b : Nat} (rest : List Nat) (h : b < 0x80) :
    utf8DecodeChar1 (b :: rest) = some (b, rest) := by
  simp [utf8DecodeChar1, h]

theorem utf8DecodeChar1_two {b b1 : Nat} (rest1 : List Nat)
    (h1 : 0xC2 ≤ b) (h2 : b < 0xE0) (hc : isCont b1 = true) :
    utf8DecodeChar1 (b :: b1 :: rest1) = some (char2 b b1, rest1) := by
  have h0 : ¬ b < 0x80 := by omega
  have h0' : ¬ b < 0xC2 := by omega
  simp [utf8DecodeChar1, decode2At, h0, h0', h2, hc]

theorem utf8DecodeChar1_three {b b1 b2 : Nat} (rest2 : List Nat)
    (h1 : 0xE0 ≤ b) (h2 : b < 0xF0)
    (hc : (isCont b1 && isCont b2 && valid3 (char3 b b1 b2)) = true) :
    utf8DecodeChar1 (b :: b1 :: b2 :: rest2) = some (char3 b b1 b2, rest2) := by
  have h0 : ¬ b < 0x80 := by omega
  have ha : ¬ b < 0xC2 := by omega
  have hb : ¬ b < 0xE0 := by omega
  simp [utf8DecodeChar1, decode3At, h0, ha, hb, h2, hc]

theorem utf8DecodeChar1_four {b b1 b2 b3 : Nat} (rest3 : List Nat)
    (h1 : 0xF0 ≤ b) (h2 : b < 0xF5)
    (hc : (isCont b1 && isCont b2 && isCont b3 && valid4 (char4 b b1 b2 b3)) = true) :
    utf8DecodeChar1 (b :: b1 :: b2 :: b3 :: rest3) = some (char4 b b1 b2 b3, rest3) := by
  have h0 : ¬ b < 0x80 := by omega
  have ha : ¬ b < 0xC2 := by omega
  have hb : ¬ b < 0xE0 := by omega
  have hcc : ¬ b < 0xF0 := by omega
  simp [utf8DecodeChar1, decode4At, h0, ha, hb, hcc, h2, hc]

theorem utf8DecodeChar1_length {l : List Nat} {c : Nat} {rest : List Nat}
    (h : utf8DecodeChar1 l = some (c, rest)) : rest.length < l.length := by
  rcases utf8DecodeChar1_inv h with ⟨_, rfl⟩ | ⟨b, b1, rfl, _⟩ | ⟨b, b1, b2, rfl, _⟩ |
    ⟨b, b1, b2, b3, rfl, _⟩ <;> simp <;> omega

theorem utf8DecodeChar1_append (L : List Nat) {l : List Nat} {c : Nat} {rest : List Nat}
    (h : utf8DecodeChar1 l = some (c, rest)) :
    utf8DecodeChar1 (l ++ L) = some (c, rest ++ L) := by
  rcases utf8DecodeChar1_inv h with ⟨hc, rfl⟩ | ⟨b, b1, rfl, hb1, hb2, hcont, rfl⟩ |
    ⟨b, b1, b2, rfl, hb1, hb2, hcont, rfl⟩ | ⟨b, b1, b2, b3, rfl, hb1, hb2, hcont, rfl⟩ <;>
    simp only [List.cons_append]
  · exact utf8DecodeChar1_ascii (rest ++ L) hc
  · exact utf8DecodeChar1_two (rest ++ L) hb1 hb2 hcont
  · exact utf8DecodeChar1_three (rest ++ L) hb1 hb2 hcont
  · exact utf8DecodeChar1_four (rest ++ L) hb1 hb2 hcont

theorem utf8DecodeChar1_rest_mem {l : List Nat} {c : Nat} {rest : List Nat}
    (h : utf8DecodeChar1 l = some (c, rest)) {x : Nat} (hx : x ∈ rest) : x ∈ l := by
  rcases utf8DecodeChar1_inv h with ⟨_, rfl⟩ | ⟨b, b1, rfl, _⟩ | ⟨b, b1, b2, rfl, _⟩ |
    ⟨b, b1, b2, b3, rfl, _⟩ <;> simp [hx]

theorem utf8DecodeChar1_ascii_inv {l : List Nat} {c : Nat} {rest : List Nat}
    (h : utf8DecodeChar1 l = some (c, rest)) (hc : c < 0x80) : l = c :: rest := by
  rcases utf8DecodeChar1_inv h with ⟨_, rfl⟩ | ⟨b, b1, rfl, hb1, hb2, hcont, rfl⟩ |
    ⟨b, b1, b2, rfl, hb1, hb2, hcont, rfl⟩ | ⟨b, b1, b2, b3, rfl, hb1, hb2, hcont, rfl⟩
  · rfl
  · exfalso
    simp only [char2] at hc
    omega
  · exfalso
    simp only [Bool.and_eq_true, valid3, decide_eq_true_eq, Bool.not_eq_true',
      Bool.and_eq_false_iff, decide_eq_false_iff_not] at hcont
    omega
  · exfalso
    simp only [Bool.and_eq_true, valid4, decide_eq_true_eq] at hcont
    omega

theorem utf8DecodeChar1_snoc_ascii {a : List Nat} {c0 : Nat} (h0 : c0 < 0x80)
    {c : Nat} {rest' : List Nat} (h : utf8DecodeChar1 (a ++ [c0]) = some (c, rest')) :
    (a = [] ∧ c = c0 ∧ rest' = []) ∨
    (∃ rest, utf8DecodeChar1 a = some (c, rest) ∧ rest' = rest ++ [c0]) := by
  rcases utf8DecodeChar1_inv h with ⟨hc, heq⟩ | ⟨b, b1, heq, hb1, hb2, hcont, rfl⟩ |
    ⟨b, b1, b2, heq, hb1, hb2, hcont, rfl⟩ | ⟨b, b1, b2, b3, heq, hb1, hb2, hcont, rfl⟩
  · cases a with
    | nil =>
      left
      simp only [List.nil_append, List.cons.injEq] at heq
      exact ⟨rfl, heq.1.symm, heq.2.symm⟩
    | cons x a' =>
      right
      simp only [List.cons_append, List.cons.injEq] at heq
      obtain ⟨rfl, h2⟩ := heq
      exact ⟨a', utf8DecodeChar1_ascii a' hc, h2.symm⟩
  · cases a with
    | nil => simp at heq
    | cons x a' =>
      cases a' with
      | nil =>
        exfalso
        simp only [List.cons_append, List.nil_append, List.cons.injEq] at heq
        obtain ⟨rfl, rfl, -⟩ := heq
        simp only [isCont, Bool.and_eq_true, decide_eq_true_eq] at hcont
        omega
      | cons y a'' =>
        right
        simp only [List.cons_append, List.cons.injEq] at heq
        obtain ⟨rfl, rfl, h3⟩ := heq
        exact ⟨a'', utf8DecodeChar1_two a'' hb1 hb2 hcont, h3.symm⟩
  · rcases a with _ | ⟨x, _ | ⟨y, _ | ⟨z, a''⟩⟩⟩
    · simp at heq
    · simp at heq
    · exfalso
      simp only [List.cons_append, List.nil_append, List.cons.injEq] at heq
      obtain ⟨rfl, rfl, rfl, -⟩ := heq
      simp only [isCont, Bool.and_eq_true, decide_eq_true_eq] at hcont
      omega
    · right
      simp only [List.cons_append, List.cons.injEq] at heq
      obtain ⟨rfl, rfl, rfl, h4⟩ := heq
      exact ⟨a'', utf8DecodeChar1_three a'' hb1 hb2 hcont, h4.symm⟩
  · rcases a with _ | ⟨x, _ | ⟨y, _ | ⟨z, _ | ⟨w, a''⟩⟩⟩⟩
    · simp at heq
    · simp at heq
    · simp at heq
    · exfalso
      simp only [List.cons_append, List.nil_append, List.cons.injEq] at heq
      obtain ⟨rfl, rfl, rfl, rfl, -⟩ := heq
      simp only [isCont, Bool.and_eq_true, decide_eq_true_eq] at hcont
      omega
    · right
      simp only [List.cons_append, List.cons.injEq] at heq
      obtain ⟨rfl, rfl, rfl, rfl, h5⟩ := heq
      exact ⟨a'', utf8DecodeChar1_four a'' hb1 hb2 hcont, h5.symm⟩

theorem utf8DecodeFuel_nil (f : Nat) : utf8DecodeFuel f [] = some [] := by
  cases f <;> rfl

theorem utf8DecodeFuel_congr : ∀ (f1 : Nat) (l : List Nat) (f2 : Nat),
    l.length ≤ f1 → l.length ≤ f2 → utf8DecodeFuel f1 l = utf8DecodeFuel f2 l := by
  intro f1
  induction f1 with
  | zero =>
    intro l f2 h1 h2
    have hl : l = [] := List.eq_nil_of_length_eq_zero (Nat.le_zero.mp h1)
    subst hl
    simp [utf8DecodeFuel_nil]
  | succ g ih =>
    intro l f2 h1 h2
    cases l with
    | nil => simp [utf8DecodeFuel_nil]
    | cons b t =>
      cases f2 with
      | zero => simp at h2
      | succ g2 =>
        simp only [utf8DecodeFuel]
        cases hc : utf8DecodeChar1 (b :: t) with
        | none => rfl
        | some p =>
          obtain ⟨c, rest⟩ := p
          have hl := utf8DecodeChar1_length hc
          simp only [List.length_cons] at h1 h2 hl
          simp only [ih rest g2 (by omega) (by omega)]

theorem utf8Decode_char1_some {l : List Nat} {c : Nat} {rest : List Nat}
    (h : utf8DecodeChar1 l = some (c, rest)) :
    utf8Decode l = (utf8Decode rest).map (fun s => c :: s) := by
  cases l with
  | nil => cases h
  | cons b t =>
    have hl := utf8DecodeChar1_length h
    simp only [List.length_cons] at hl
    show utf8DecodeFuel (b :: t).length (b :: t) = _
    simp only [List.length_cons, utf8DecodeFuel, h]
    rw [utf8DecodeFuel_congr t.length rest rest.length (by omega) (by omega)]
    rfl

theorem utf8Decode_char1_none {l : List Nat} (hne : l ≠ [])
    (h : utf8DecodeChar1 l = none) : utf8Decode l = none := by
  cases l with
  | nil => exact absurd rfl hne
  | cons b t =>
    show utf8DecodeFuel (b :: t).length (b :: t) = none
    simp only [List.length_cons, utf8DecodeFuel, h]

theorem utf8Decode_append_aux : ∀ (n : Nat) (a : List Nat), a.length ≤ n →
    ∀ (L : List Nat) (s : List Nat), utf8Decode a = some s →
      utf8Decode (a ++ L) = (utf8Decode L).map (fun t => s ++ t) := by
  intro n
  induction n with
  | zero =>
    intro a ha L s h
    have hl : a = [] := List.eq_nil_of_length_eq_zero (Nat.le_zero.mp ha)
    subst hl
    obtain rfl : ([] : List Nat) = s := by simpa [utf8Decode, utf8DecodeFuel] using h
    simp only [List.nil_append]
    cases utf8Decode L <;> simp
  | succ m ih =>
    intro a ha L s h
    cases a with
    | nil =>
      obtain rfl : ([] : List Nat) = s := by simpa [utf8Decode, utf8DecodeFuel] using h
      simp only [List.nil_append]
      cases utf8Decode L <;> simp
    | cons b t =>
      cases hc : utf8DecodeChar1 (b :: t) with
      | none =>
        rw [utf8Decode_char1_none (by simp) hc] at h
        cases h
      | some p =>
        obtain ⟨c, rest⟩ := p
        rw [utf8Decode_char1_some hc] at h
        obtain ⟨s', hs', rfl⟩ := Option.map_eq_some'.mp h
        have hlen := utf8DecodeChar1_length hc
        simp only [List.length_cons] at ha hlen
        rw [utf8Decode_char1_some (utf8DecodeChar1_append L hc)]
        rw [ih rest (by omega) L s' hs']
        cases utf8Decode L <;> simp

theorem utf8Decode_append {a : List Nat} (L : List Nat) {s : List Nat}
    (h : utf8Decode a = some s) :
    utf8Decode (a ++ L) = (utf8Decode L).map (fun t => s ++ t) :=
  utf8Decode_append_aux a.length a (Nat.le_refl _) L s h

theorem utf8Decode_snoc_ascii_aux : ∀ (n : Nat) (a : List Nat), a.length ≤ n →
    ∀ (c0 : Nat), c0 < 0x80 → ∀ (l : List Nat), utf8Decode (a ++ [c0]) = some l →
      ∃ s, utf8Decode a = some s ∧ l = s ++ [c0] := by
  intro n
  induction n with
  | zero =>
    intro a ha c0 hc0 l h
    have hl : a = [] := List.eq_nil_of_length_eq_zero (Nat.le_zero.mp ha)
    subst hl
    simp only [List.nil_append] at h
    rw [utf8Decode_char1_some (utf8DecodeChar1_ascii [] hc0)] at h
    obtain ⟨s', hs', rfl⟩ := Option.map_eq_some'.mp h
    obtain rfl : ([] : List Nat) = s' := by
      simpa [utf8Decode, utf8DecodeFuel] using hs'
    exact ⟨[], rfl, rfl⟩
  | succ m ih =>
    intro a ha c0 hc0 l h
    cases a with
    | nil =>
      simp only [List.nil_append] at h
      rw [utf8Decode_char1_some (utf8DecodeChar1_ascii [] hc0)] at h
      obtain ⟨s', hs', rfl⟩ := Option.map_eq_some'.mp h
      obtain rfl : ([] : List Nat) = s' := by
        simpa [utf8Decode, utf8DecodeFuel] using hs'
      exact ⟨[], rfl, rfl⟩
    | cons b t =>
      cases hc : utf8DecodeChar1 ((b :: t) ++ [c0]) with
      | none =>
        rw [utf8Decode_char1_none (by simp) hc] at h
        cases h
      | some p =>
        obtain ⟨c, rest'⟩ := p
        rw [utf8Decode_char1_some hc] at h
        obtain ⟨l', hl', rfl⟩ := Option.map_eq_some'.mp h
        rcases utf8DecodeChar1_snoc_ascii hc0 hc with ⟨habs, -, -⟩ | ⟨rest, hrest, rfl⟩
        · cases habs
        · have hlen := utf8DecodeChar1_length hrest
          simp only [List.length_cons] at ha hlen
          obtain ⟨s', hs', rfl⟩ := ih rest (by omega) c0 hc0 l' hl'
          refine ⟨c :: s', ?_, rfl⟩
          rw [utf8Decode_char1_some hrest, hs']
          rfl

theorem utf8Decode_snoc_ascii {a : List Nat} {c0 : Nat} (hc0 : c0 < 0x80)
    {l : List Nat} (h : utf8Decode (a ++ [c0]) = some l) :
    ∃ s, utf8Decode a = some s ∧ l = s ++ [c0] :=
  utf8Decode_snoc_ascii_aux a.length a (Nat.le_refl _) c0 hc0 l h

theorem utf8Decode_mem_ascii_aux : ∀ (n : Nat) (l : List Nat), l.length ≤ n →
    ∀ (s : List Nat), utf8Decode l = some s →
      ∀ c ∈ s, c < 0x80 → c ∈ l := by
  intro n
  induction n with
  | zero =>
    intro l hl s h c hc _
    have : l = [] := List.eq_nil_of_length_eq_zero (Nat.le_zero.mp hl)
    subst this
    obtain rfl : ([] : List Nat) = s := by simpa [utf8Decode, utf8DecodeFuel] using h
    cases hc
  | succ m ih =>
    intro l hl s h c hc hascii
    cases l with
    | nil =>
      obtain rfl : ([] : List Nat) = s := by simpa [utf8Decode, utf8DecodeFuel] using h
      cases hc
    | cons b t =>
      cases hd : utf8DecodeChar1 (b :: t) with
      | none =>
        rw [utf8Decode_char1_none (by simp) hd] at h
        cases h
      | some p =>
        obtain ⟨c1, rest⟩ := p
        rw [utf8Decode_char1_some hd] at h
        obtain ⟨s', hs', rfl⟩ := Option.map_eq_some'.mp h
        rcases List.mem_cons.mp hc with rfl | hmem
        · rw [utf8DecodeChar1_ascii_inv hd hascii]
          simp
        · have hlen := utf8DecodeChar1_length hd
          simp only [List.length_cons] at hl hlen
          exact utf8DecodeChar1_rest_mem hd (ih rest (by omega) s' hs' c hmem hascii)

theorem utf8Decode_mem_ascii {l : List Nat} {s : List Nat} (h : utf8Decode l = some s)
    {c : Nat} (hc : c ∈ s) (hascii : c < 0x80) : c ∈ l :=
  utf8Decode_mem_ascii_aux l.length l (Nat.le_refl _) s h c hc hascii

theorem utf8DecodeChar1_encodeChar (rest : List Nat) {c : Nat} (h : validScalar c = true) :
    utf8DecodeChar1 (utf8EncodeChar c ++ rest) = some (c, rest) := by
  simp only [validScalar, Bool.and_eq_true, decide_eq_true_eq, Bool.not_eq_true',
    Bool.and_eq_false_iff, decide_eq_false_iff_not] at h
  by_cases h1 : c < 0x80
  · simp only [utf8EncodeChar, if_pos h1, List.cons_append, List.nil_append]
    exact utf8DecodeChar1_ascii rest h1
  · by_cases h2 : c < 0x800
    · simp only [utf8EncodeChar, if_neg h1, if_pos h2, List.cons_append, List.nil_append]
      rw [utf8DecodeChar1_two rest (by omega) (by omega)
        (by simp only [isCont, Bool.and_eq_true, decide_eq_true_eq]; omega)]
      simp only [char2, Option.some.injEq, Prod.mk.injEq]
      exact ⟨by omega, trivial⟩
    · by_cases h3 : c < 0x10000
      · simp only [utf8EncodeChar, if_neg h1, if_neg h2, if_pos h3, List.cons_append,
          List.nil_append]
        rw [utf8DecodeChar1_three rest (by omega) (by omega) ?hc]
        case hc =>
          simp only [isCont, valid3, char3, Bool.and_eq_true, decide_eq_true_eq,
            Bool.not_eq_true', Bool.and_eq_false_iff, decide_eq_false_iff_not]
          omega
        simp only [char3, Option.some.injEq, Prod.mk.injEq]
        exact ⟨by omega, trivial⟩
      · simp only [utf8EncodeChar, if_neg h1, if_neg h2, if_neg h3, List.cons_append,
          List.nil_append]
        rw [utf8DecodeChar1_four rest (by omega) (by omega) ?hc]
        case hc =>
          simp only [isCont, valid4, char4, Bool.and_eq_true, decide_eq_true_eq]
          omega
        simp only [char4, Option.some.injEq, Prod.mk.injEq]
        exact ⟨by omega, trivial⟩

theorem utf8Encode_nil : utf8Encode [] = [] := rfl

theorem utf8Encode_cons (c : Nat) (s : List Nat) :
    utf8Encode (c :: s) = utf8EncodeChar c ++ utf8Encode s := by
  simp [utf8Encode]

theorem utf8Decode_encode_append : ∀ (s : List Nat), (∀ c ∈ s, validScalar c = true) →
    ∀ (rest : List Nat),
      utf8Decode (utf8Encode s ++ rest) = (utf8Decode rest).map (fun t => s ++ t) := by
  intro s
  induction s with
  | nil =>
    intro _ rest
    simp only [utf8Encode_nil, List.nil_append]
    cases utf8Decode rest <;> simp
  | cons c s' ih =>
    intro h rest
    have hc : validScalar c = true := h c (by simp)
    have hs' : ∀ x ∈ s', validScalar x = true := fun x hx => h x (by simp [hx])
    rw [utf8Encode_cons, List.append_assoc,
      utf8Decode_char1_some (utf8DecodeChar1_encodeChar (utf8Encode s' ++ rest) hc),
      ih hs' rest]
    cases utf8Decode rest <;> simp

theorem utf8Decode_utf8Encode (s : List Nat) (h : ∀ c ∈ s, validScalar c = true) :
    utf8Decode (utf8Encode s) = some s := by
  have h2 := utf8Decode_encode_append s h []
  simpa [utf8Decode, utf8DecodeFuel] using h2

theorem utf8EncodeChar_ne_10 {c : Nat} (hc : c ≠ 10) : ∀ b ∈ utf8EncodeChar c, b ≠ 10 := by
  intro b hb
  simp only [utf8EncodeChar] at hb
  split_ifs at hb <;> simp only [List.mem_cons, List.mem_singleton,
    List.not_mem_nil, or_false] at hb <;>
    rcases hb with rfl | rfl | rfl | rfl <;> omega

theorem utf8Encode_ne_10 {s : List Nat} (h : ∀ c ∈ s, c ≠ 10) :
    ∀ b ∈ utf8Encode s, b ≠ 10 := by
  intro b hb
  simp only [utf8Encode, List.mem_flatMap] at hb
  obtain ⟨c, hcs, hbc⟩ := hb
  exact utf8EncodeChar_ne_10 (h c hcs) b hbc

theorem position_append_of_none {p : Nat → Bool} {a : List Nat}
    (h : ∀ b ∈ a, p b = false) (t : List Nat) :
    position p (a ++ t) = (position p t).map (fun n => n + a.length) := by
  induction a with
  | nil =>
    simp only [List.nil_append, List.length_nil]
    cases position p t <;> simp
  | cons x a' ih =>
    have hx : p x = false := h x (by simp)
    have ha' : ∀ b ∈ a', p b = false := fun b hb => h b (by simp [hb])
    simp only [List.cons_append, position, hx, Bool.false_eq_true, if_false]
    rw [show a'.append t = a' ++ t from rfl, ih ha']
    cases position p t with
    | none => rfl
    | some n =>
      simp only [Option.map_some', List.length_cons, Option.some.injEq]
      omega

/-- `decode` when no boundary byte exists: `Ok(None)`, accumulator kept. -/
theorem decode_needMoreData_of_position_none {src : List Nat}
    (hpos : position (fun b => b == 10) src = none) :
    SerialReadCodec.decode src = (.needMoreData, src) := by
  simp [SerialReadCodec.decode, hpos]

/-- `decode` when the split-off chunk is valid text: a trimmed Line. -/
theorem decode_line_of_chunk_valid {src : List Nat} {n : Nat} {s : List Nat}
    (hpos : position (fun b => b == 10) src = some n)
    (hdec : utf8Decode (src.take (n + 1)) = some s) :
    SerialReadCodec.decode src = (.line (trimEnd s), src.drop (n + 1)) := by
  simp [SerialReadCodec.decode, hpos, hdec]

/-- `decode` when the split-off chunk is invalid text: an error, with the
chunk already consumed. -/
theorem decode_error_of_chunk_invalid {src : List Nat} {n : Nat}
    (hpos : position (fun b => b == 10) src = some n)
    (hdec : utf8Decode (src.take (n + 1)) = none) :
    SerialReadCodec.decode src = (.decodeError, src.drop (n + 1)) := by
  simp [SerialReadCodec.decode, hpos, hdec]

/-! ## Claim theorems -/

/-- C6: for every accumulator containing no boundary byte (0x0A), `decode`
returns `NeedMoreData` and leaves the accumulator exactly unchanged. -/
theorem decode_no_boundary_needMoreData {src : List Nat}
    (h : ∀ b ∈ src, b ≠ 10) :
    SerialReadCodec.decode src = (.needMoreData, src) := by
  have hp : position (fun b => b == 10) src = none :=
    position_eq_none.mpr (fun b hb => by simpa using h b hb)
  simp [SerialReadCodec.decode, hp]

/-- Witness for C6 at the concrete accumulator `"hi"`. -/
theorem decode_no_boundary_needMoreData_witness :
    (∀ b ∈ [104, 105], b ≠ 10) ∧
      SerialReadCodec.decode [104, 105] = (.needMoreData, [104, 105]) :=
  ⟨by decide, decode_no_boundary_needMoreData (by decide)⟩

/-- C8: an accumulator whose very first byte is the boundary byte yields an
empty Line, with the rest of the accumulator untouched. -/
theorem decode_boundary_first_empty_line (rest : List Nat) :
    SerialReadCodec.decode (10 :: rest) = (.line [], rest) := rfl

/-- C3 counterexample: on the accumulator `"a \n"` (boundary at offset 2) the
claim predicts Line `"a "` — trailing space preserved, only a CR before the
boundary stripped — but `decode` emits `"a"`: `trim_end` strips every
trailing whitespace character, not just a carriage return. -/
theorem decode_trailing_space_counterexample :
    SerialReadCodec.decode [97, 32, 10] = (.line [97], []) ∧
      DecodeResult.line [97] ≠ .line [97, 32] := by decide

/-- C3 (amended): if the first boundary byte of the accumulator is at offset
`n` and the chunk `[0, n)` is valid text, `decode` removes bytes `[0, n]`
inclusive (leaving exactly `src.drop (n + 1)`) and emits the chunk decoded
as text with all trailing whitespace stripped (carriage returns and every
other trailing whitespace character alike). -/
theorem decode_boundary_consumes_and_trims {src : List Nat} {n : Nat} {s : List Nat}
    (hpos : position (fun b => b == 10) src = some n)
    (hdec : utf8Decode (src.take n) = some s) :
    SerialReadCodec.decode src = (.line (trimEnd s), src.drop (n + 1)) := by
  obtain ⟨b, hb, hpb⟩ := position_some_found hpos
  have hb10 : b = 10 := by simpa using hpb
  subst hb10
  have hchunk : utf8Decode (src.take (n + 1)) = some (s ++ [10]) := by
    rw [take_succ_of_getElem? hb, utf8Decode_append [10] hdec]
    rfl
  have htrim : trimEnd (s ++ [10]) = trimEnd s := trimEnd_append_white (by decide)
  simp [SerialReadCodec.decode, hpos, hchunk, htrim]

/-- Witness for C3 (amended) at the accumulator `"hi\nx"`. -/
theorem decode_boundary_consumes_and_trims_witness :
    position (fun b => b == 10) [104, 105, 10, 120] = some 2 ∧
    utf8Decode [104, 105] = some [104, 105] ∧
    SerialReadCodec.decode [104, 105, 10, 120] = (.line [104, 105], [120]) :=
  ⟨by decide, by decide,
    decode_boundary_consumes_and_trims (n := 2) (s := [104, 105])
      (by decide) (by decide)⟩

/-- C7: if the candidate chunk before the first boundary byte is not valid
text, `decode` returns a `DecodeError` and emits no Line. -/
theorem decode_invalid_text_error {src : List Nat} {n : Nat}
    (hpos : position (fun b => b == 10) src = some n)
    (hdec : utf8Decode (src.take n) = none) :
    SerialReadCodec.decode src = (.decodeError, src.drop (n + 1)) := by
  obtain ⟨b, hb, hpb⟩ := position_some_found hpos
  have hb10 : b = 10 := by simpa using hpb
  subst hb10
  have hchunk : utf8Decode (src.take (n + 1)) = none := by
    rw [take_succ_of_getElem? hb]
    cases hd : utf8Decode (src.take n ++ [10]) with
    | none => rfl
    | some l =>
      obtain ⟨s, hs, -⟩ := utf8Decode_snoc_ascii (by omega) hd
      rw [hdec] at hs
      cases hs
  simp [SerialReadCodec.decode, hpos, hchunk]

/-- Witness for C7 at the accumulator `[0xC3, 0x0A]` (a dangling UTF-8 lead
byte before the boundary). -/
theorem decode_invalid_text_error_witness :
    position (fun b => b == 10) [195, 10] = some 1 ∧
    utf8Decode [195] = none ∧
    SerialReadCodec.decode [195, 10] = (.decodeError, []) :=
  ⟨by decide, by decide,
    decode_invalid_text_error (n := 1) (by decide) (by decide)⟩

/-- C10: when `decode` reports a `DecodeError` the accumulator has already
been modified: the candidate bytes and the boundary byte are gone, so a
retry sees a strictly different (shorter) accumulator. -/
theorem decode_error_modifies_accumulator {src acc' : List Nat}
    (h : SerialReadCodec.decode src = (.decodeError, acc')) :
    ∃ n, position (fun b => b == 10) src = some n ∧
      acc' = src.drop (n + 1) ∧ acc' ≠ src := by
  cases hpos : position (fun b => b == 10) src with
  | none =>
    rw [decode_needMoreData_of_position_none hpos] at h
    simp at h
  | some n =>
    cases hdec : utf8Decode (src.take (n + 1)) with
    | some s =>
      rw [decode_line_of_chunk_valid hpos hdec] at h
      simp at h
    | none =>
      rw [decode_error_of_chunk_invalid hpos hdec] at h
      simp only [Prod.mk.injEq, true_and] at h
      subst h
      refine ⟨n, rfl, rfl, ?_⟩
      intro heq
      have hn := position_some_bound hpos
      have hlen := congrArg List.length heq
      simp only [List.length_drop] at hlen
      omega

/-- C9 counterexample: decoding `"a\rb\n"` yields the Line `"a\rb"`, which
contains the carriage-return byte 0x0D embedded — `decode` only trims the
end of the chunk, so Lines are not free of 0x0D everywhere. -/
theorem decode_embedded_cr_counterexample :
    SerialReadCodec.decode [97, 13, 98, 10] = (.line [97, 13, 98], []) ∧
      13 ∈ [97, 13, 98] := by decide

/-- C9 (amended): every Line emitted by `decode` contains no 0x0A anywhere,
and ends in no whitespace character (in particular not in 0x0D or 0x0A);
0x0D may still occur embedded in the middle of a Line. -/
theorem decode_line_no_newline_no_trailing_whitespace {src l acc' : List Nat}
    (h : SerialReadCodec.decode src = (.line l, acc')) :
    10 ∉ l ∧ ∀ c, l.getLast? = some c → isWhitespaceChar c = false := by
  cases hpos : position (fun b => b == 10) src with
  | none =>
    rw [decode_needMoreData_of_position_none hpos] at h
    simp at h
  | some n =>
    cases hdec : utf8Decode (src.take (n + 1)) with
    | none =>
      rw [decode_error_of_chunk_invalid hpos hdec] at h
      simp at h
    | some s =>
      rw [decode_line_of_chunk_valid hpos hdec] at h
      simp only [Prod.mk.injEq, DecodeResult.line.injEq] at h
      obtain ⟨rfl, rfl⟩ := h
      obtain ⟨b, hb, hpb⟩ := position_some_found hpos
      have hb10 : b = 10 := by simpa using hpb
      subst hb10
      rw [take_succ_of_getElem? hb] at hdec
      obtain ⟨s0, hs0, rfl⟩ := utf8Decode_snoc_ascii (by omega) hdec
      rw [trimEnd_append_white (by decide)]
      refine ⟨?_, fun c hc => trimEnd_getLast?_not_white hc⟩
      intro hmem
      have h10s0 : 10 ∈ s0 := mem_trimEnd hmem
      have h10take : (10 : Nat) ∈ src.take n :=
        utf8Decode_mem_ascii hs0 h10s0 (by omega)
      obtain ⟨i, hi⟩ := List.mem_iff_getElem.mp h10take
      obtain ⟨hilt, hig⟩ := hi
      have hlen : i < n := by
        have := List.length_take_le n src
        omega
      have higet : src[i]? = some 10 := by
        have h1 : (src.take n)[i]? = some 10 := by
          simp [List.getElem?_eq_getElem hilt, hig]
        rwa [List.getElem?_take_of_lt hlen] at h1
      have := position_some_before hpos i 10 hlen higet
      simp at this

/-- Witness for C9 (amended) at the accumulator `"hi\n"`. -/
theorem decode_line_no_newline_no_trailing_whitespace_witness :
    10 ∉ [104, 105] ∧
      ∀ c, [104, 105].getLast? = some c → isWhitespaceChar c = false :=
  @decode_line_no_newline_no_trailing_whitespace [104, 105, 10] [104, 105] []
    (by decide)

/-- C4: `encode` cannot fail and, for every line, every terminator policy
and every prior buffer content, appends exactly the line's bytes followed
by the policy's terminator bytes — `0x0D` for `cr`, `0x0A` for `lf`,
`0x0D 0x0A` for `crlf` — with no truncation. -/
theorem encode_line_then_terminator (e : Eol) (line buf : List Nat) :
    SerialWriteCodec.encode e line buf = (.ok (), buf ++ utf8Encode line ++ e.bytes) ∧
      Eol.bytes .cr = [13] ∧ Eol.bytes .lf = [10] ∧ Eol.bytes .crlf = [13, 10] :=
  ⟨rfl, rfl, rfl, rfl⟩

/-- C2 counterexample: the text `"a "` contains no boundary byte, yet
encoding it with `crlf` and decoding the bytes yields the Line `"a"`,
not `"a "` — the decoder's `trim_end` also removes the text's own trailing
whitespace. -/
theorem roundtrip_counterexample :
    (∀ c ∈ [97, 32], c ≠ 10) ∧
      SerialReadCodec.decode ((SerialWriteCodec.encode .crlf [97, 32] []).2) =
        (.line [97], []) ∧
      DecodeResult.line [97] ≠ .line [97, 32] := by decide

/-- C2 (amended): for every text `s` (valid scalar values) containing no
boundary character and no trailing whitespace, encoding `s` with policy
`crlf` and then decoding the resulting bytes yields exactly one Line equal
to `s`, with an empty residual accumulator. -/
theorem roundtrip_crlf {s : List Nat}
    (hvalid : ∀ c ∈ s, validScalar c = true)
    (hnb : ∀ c ∈ s, c ≠ 10)
    (htrim : trimEnd s = s) :
    SerialReadCodec.decode ((SerialWriteCodec.encode .crlf s []).2) = (.line s, []) := by
  have hbytes : (SerialWriteCodec.encode .crlf s []).2 = utf8Encode s ++ [13, 10] := rfl
  rw [hbytes]
  have hno10 : ∀ b ∈ utf8Encode s, (fun b => b == 10) b = false := by
    intro b hb
    simpa using utf8Encode_ne_10 hnb b hb
  have hpos : position (fun b => b == 10) (utf8Encode s ++ [13, 10]) =
      some ((utf8Encode s).length + 1) := by
    rw [position_append_of_none hno10]
    simp only [position, Option.map_some']
    norm_num
    omega
  have hlen : (utf8Encode s ++ [13, 10]).length = (utf8Encode s).length + 2 := by
    simp
  have htake : (utf8Encode s ++ [13, 10]).take ((utf8Encode s).length + 1 + 1) =
      utf8Encode s ++ [13, 10] :=
    List.take_of_length_le (by omega)
  have hchunk : utf8Decode ((utf8Encode s ++ [13, 10]).take ((utf8Encode s).length + 1 + 1)) =
      some (s ++ [13, 10]) := by
    rw [htake, utf8Decode_encode_append s hvalid [13, 10]]
    rfl
  have hdrop : (utf8Encode s ++ [13, 10]).drop ((utf8Encode s).length + 1 + 1) = [] :=
    List.drop_eq_nil_of_le (by omega)
  rw [decode_line_of_chunk_valid hpos hchunk, hdrop]
  have htrim2 : trimEnd (s ++ [13, 10]) = s := by
    have h1 : s ++ [13, 10] = (s ++ [13]) ++ [10] := by simp
    rw [h1, trimEnd_append_white (by decide), trimEnd_append_white (by decide), htrim]
  rw [htrim2]

/-- Witness for C2 (amended) at the text `"hi"`. -/
theorem roundtrip_crlf_witness :
    (∀ c ∈ [104, 105], validScalar c = true) ∧
    (∀ c ∈ [104, 105], c ≠ 10) ∧
    trimEnd [104, 105] = [104, 105] ∧
    SerialReadCodec.decode ((SerialWriteCodec.encode .crlf [104, 105] []).2) =
      (.line [104, 105], []) :=
  ⟨by decide, by decide, by decide, roundtrip_crlf (by decide) (by decide) (by decide)⟩

/-- C1 counterexample: with the console-side loop completing successfully at
poll step 0 and the device-side loop failing at step 5, the session is
still running at step 0 (`try_join` does not complete on a first
*successful* loop exit) and only terminates at step 5 — refuting "entered
as soon as either loop completes (successfully or with an error)". -/
theorem first_close_wins_counterexample :
    tryJoinAt ⟨0, .ok ()⟩ ⟨5, .error ⟨0⟩⟩ 0 = none ∧
      tryJoinAt ⟨0, .ok ()⟩ ⟨5, .error ⟨0⟩⟩ 5 = some (.error ⟨0⟩) :=
  ⟨rfl, rfl⟩

/-- C1 (amended): the coordinator's session reaches its single terminal
state as soon as either loop completes **with an error** (first failure
wins, ties going to the first-polled loop); a loop that completes
successfully does not end the session — when both loops succeed the
session terminates only once the later one finishes. `sessionEndTime`
states that time; before it `try_join` is still pending. -/
theorem coordinator_terminates_at_sessionEndTime (a b : LoopOutcome) :
    tryJoinAt a b (sessionEndTime a b) = some (sessionResult a b) ∧
      ∀ t, t < sessionEndTime a b → tryJoinAt a b t = none := by
  obtain ⟨ta, ra⟩ := a
  obtain ⟨tb, rb⟩ := b
  cases ra <;> cases rb <;>
    constructor <;>
    try intro t ht
  all_goals
    simp only [tryJoinAt, pollLoop, sessionEndTime, sessionResult] at *
  all_goals split_ifs at * <;> (try simp_all) <;> (try omega)

/-- Witness for C1 (amended) with loops `⟨2, Ok⟩` and `⟨7, Err⟩`: the
session completes at step 7 with the error, and is still pending at
step 3. -/
theorem coordinator_terminates_at_sessionEndTime_witness :
    tryJoinAt ⟨2, .ok ()⟩ ⟨7, .error ⟨1⟩⟩
        (sessionEndTime ⟨2, .ok ()⟩ ⟨7, .error ⟨1⟩⟩) =
      some (sessionResult ⟨2, .ok ()⟩ ⟨7, .error ⟨1⟩⟩) ∧
    3 < sessionEndTime ⟨2, .ok ()⟩ ⟨7, .error ⟨1⟩⟩ ∧
    tryJoinAt ⟨2, .ok ()⟩ ⟨7, .error ⟨1⟩⟩ 3 = none :=
  ⟨(coordinator_terminates_at_sessionEndTime ⟨2, .ok ()⟩ ⟨7, .error ⟨1⟩⟩).1,
    by decide,
    (coordinator_terminates_at_sessionEndTime ⟨2, .ok ()⟩ ⟨7, .error ⟨1⟩⟩).2 3
      (by decide)⟩

/-- C5: whenever one forwarding loop completes successfully and the other
fails with a `TransportError`, any completion `try_join` reports is that
error — the successful loop's completion never overrides it, whatever the
completion times (and hence whichever loop finished first). -/
theorem error_outcome_overrides_success (ta tb : Nat) (e : TransportError) :
    (∀ t r, tryJoinAt ⟨ta, .ok ()⟩ ⟨tb, .error e⟩ t = some r → r = .error e) ∧
      (∀ t r, tryJoinAt ⟨ta, .error e⟩ ⟨tb, .ok ()⟩ t = some r → r = .error e) := by
  constructor <;>
    intro t r h <;>
    simp only [tryJoinAt, pollLoop] at h <;>
    split_ifs at h <;>
    simp_all

/-- Witness for C5: console loop succeeds at step 9, device loop fails at
step 4; the completion at step 9 reports the device error. -/
theorem error_outcome_overrides_success_witness :
    tryJoinAt ⟨9, .ok ()⟩ ⟨4, .error ⟨2⟩⟩ 9 = some (.error ⟨2⟩) ∧
      (Except.error ⟨2⟩ : Except TransportError Unit) = .error ⟨2⟩ :=
  ⟨rfl, (error_outcome_overrides_success 9 4 ⟨2⟩).1 9 (.error ⟨2⟩) rfl⟩

/-- Witness for C10 at the accumulator `[0xC3, 0x0A]`: after the error the
accumulator is empty, not the original two bytes. -/
theorem decode_error_modifies_accumulator_witness :
    ∃ n, position (fun b => b == 10) [195, 10] = some n ∧
      ([] : List Nat) = [195, 10].drop (n + 1) ∧ ([] : List Nat) ≠ [195, 10] :=
  @decode_error_modifies_accumulator [195, 10] [] (by decide)
